import Mathlib

/-!
Shallow embedding of `src/scripts/ai_translate_adoc.py`.

Python strings are modelled as `List Char`; Python dictionaries (which
iterate in insertion order) are modelled as association lists
`List (List Char × List Char)`; Python `str.replace` is `pyReplace`.
The remote chat-completion call, the filesystem and JSON parsing are
external collaborators and appear as explicit function parameters.
-/

namespace AdocTranslate

/-- The script's `CHUNK_SIZE = 10000` (characters per chunk). -/
def CHUNK_SIZE : Nat := 10000

/-- Embedding of Python `str.replace` for a nonempty pattern `o :: os`:
scan left to right, replacing each leftmost, non-overlapping occurrence
of the pattern by `new`.  The fuel argument bounds the number of scan
steps; `s.length` steps always suffice because each step consumes at
least one character of `s`. -/
def replaceAux (o : Char) (os new : List Char) : Nat → List Char → List Char
  | 0, s => s
  | _ + 1, [] => []
  | fuel + 1, c :: rest =>
    if c = o ∧ rest.take os.length = os then
      new ++ replaceAux o os new fuel (rest.drop os.length)
    else
      c :: replaceAux o os new fuel rest

/-- Python `s.replace(old, new)` (all occurrences).  For an empty pattern
Python inserts `new` before every character and once at the end, e.g.
`"ab".replace("", "-") = "-a-b-"`. -/
def pyReplace (s old new : List Char) : List Char :=
  match old with
  | [] => new ++ s.flatMap (fun c => c :: new)
  | o :: os => replaceAux o os new s.length s

/-- `apply_glossary` (lines 34-38): fold `text.replace(zh, en)` over the
glossary items in insertion order. -/
def apply_glossary (text : List Char) (glossary : List (List Char × List Char)) : List Char :=
  glossary.foldl (fun t p => pyReplace t p.1 p.2) text

/-- The glossary-enforcement post-pass inside `translate_chunk`
(lines 60-62): for each pair `(zh, en)` do
`translated.replace(zh, en).replace(en, en)`. -/
def translate_post (translated : List Char) (glossary : List (List Char × List Char)) : List Char :=
  glossary.foldl (fun t p => pyReplace (pyReplace t p.1 p.2) p.2 p.2) translated

/-- Boolean substring-occurrence test: `hasOccur pat s = true` iff `pat`
occurs as a contiguous substring of `s` (Python's `pat in s`). -/
def hasOccur (pat : List Char) : List Char → Bool
  | [] => pat.isEmpty
  | c :: rest => ((c :: rest).take pat.length == pat) || hasOccur pat rest

/-- A paragraph break ("\n\n") sits at position `p` of `t`. -/
def nnAt (t : List Char) (p : Nat) : Prop :=
  t.get? p = some '\n' ∧ t.get? (p + 1) = some '\n'

instance instDecidableNnAt (t : List Char) (p : Nat) : Decidable (nnAt t p) :=
  inferInstanceAs (Decidable (_ = _ ∧ _ = _))

/-- Downward scan used to embed Python `text.rfind("\n\n", start, stop)`:
returns the largest `p < n` with `start ≤ p` at which "\n\n" occurs, if any. -/
def rfindAux (t : List Char) (start : Nat) : Nat → Option Nat
  | 0 => none
  | n + 1 => if start ≤ n ∧ nnAt t n then some n else rfindAux t start n

/-- Python `text.rfind("\n\n", start, stop)` (as an `Option`): the largest
position `p` with `start ≤ p` and `p + 2 ≤ min stop (length t)` at which
"\n\n" occurs in `t`.  (Python requires the occurrence to lie wholly
inside `text[start:stop]`.) -/
def rfind2NL (t : List Char) (start stop : Nat) : Option Nat :=
  rfindAux t start (min stop t.length - 1)

/-- The cut position chosen by one iteration of the `chunk_text` loop
(lines 68-76): `end = min(start + size, len(text))`; if `end < len(text)`
and `text.rfind("\n\n", start, end)` finds a position strictly after
`start`, the cut moves to that position plus one. -/
def cutPos (t : List Char) (size start : Nat) : Nat :=
  if min (start + size) t.length < t.length then
    match rfind2NL t start (min (start + size) t.length) with
    | some p => if start < p then p + 1 else min (start + size) t.length
    | none => min (start + size) t.length
  else min (start + size) t.length

/-- The `while start < len(text)` loop of `chunk_text`, with cursor
`start` and a fuel bound on the number of iterations.  Each iteration
appends the slice `text[start:end]` and sets `start = end`.  When
`0 < size` every iteration advances the cursor by at least one, so
`t.length` iterations always suffice (Python does not terminate on
`size = 0`, which no caller uses: `CHUNK_SIZE = 10000`). -/
def chunkAux (t : List Char) (size : Nat) : Nat → Nat → List (List Char)
  | _, 0 => []
  | start, fuel + 1 =>
    if start < t.length then
      ((t.drop start).take (cutPos t size start - start)) ::
        chunkAux t size (cutPos t size start) fuel
    else []

/-- `chunk_text` (lines 65-78): split `text` into chunks of at most
`size` characters, preferring to cut just after the first newline of a
double newline found strictly after the chunk's start. -/
def chunk_text (t : List Char) (size : Nat) : List (List Char) :=
  chunkAux t size 0 t.length

/-- Python `"\n".join(chunks)` as used on the translated chunks in
`process_file` (line 93). -/
def joinNL : List (List Char) → List Char
  | [] => []
  | [c] => c
  | c :: rest => c ++ '\n' :: joinNL rest

/-- On-disk state visible to the script: file contents (an association
list path ↦ content) together with the progress set of already-translated
paths (`done_files`, persisted by `save_progress` after each success). -/
structure FState where
  files : List (List Char × List Char)
  progress : List (List Char)

/-- Overwrite (or create) the entry for `path` with `content`, as
`open(path, "w")` followed by `f.write(translated)` does. -/
def writeFile : List (List Char × List Char) → List Char → List Char → List (List Char × List Char)
  | [], path, content => [(path, content)]
  | (q, d) :: rest, path, content =>
    if q = path then (path, content) :: rest else (q, d) :: writeFile rest path content

/-- Python `done_files.add(path)` on the progress set. -/
def addPath (path : List Char) (s : List (List Char)) : List (List Char) :=
  if path ∈ s then s else path :: s

/-- `translate_chunk` (lines 40-63) with the remote chat-completion call
abstracted as `call : List Char → Except Unit (List Char)` (the glossary
only enters the request through the system prompt, which the external
model interprets): on success, the glossary post-pass `translate_post` is
applied to the model's output; an API exception propagates. -/
def translate_chunk (call : List Char → Except Unit (List Char))
    (glossary : List (List Char × List Char)) (text : List Char) :
    Except Unit (List Char) :=
  match call text with
  | .error e => .error e
  | .ok translated => .ok (translate_post translated glossary)

/-- The chunk loop of `process_file` (lines 86-91): translate chunks in
order, stopping at (and propagating) the first exception. -/
def translateChunks (call : List Char → Except Unit (List Char))
    (glossary : List (List Char × List Char)) :
    List (List Char) → Except Unit (List (List Char))
  | [] => .ok []
  | c :: rest =>
    match translate_chunk call glossary c with
    | .error e => .error e
    | .ok t =>
      match translateChunks call glossary rest with
      | .error e => .error e
      | .ok ts => .ok (t :: ts)

/-- `process_file` (lines 80-102): read the file (a missing file raises,
caught by the `except` block, leaving the state unchanged); chunk it;
translate every chunk (buffering the results); only after all chunks
succeed, join them with "\n", overwrite the file, add the path to
`done_files` and persist.  Any exception is caught and only logged. -/
def process_file (call : List Char → Except Unit (List Char))
    (glossary : List (List Char × List Char)) (path : List Char) (st : FState) : FState :=
  match st.files.lookup path with
  | none => st
  | some content =>
    match translateChunks call glossary (chunk_text content CHUNK_SIZE) with
    | .error _ => st
    | .ok translated_chunks =>
      { files := writeFile st.files path (joinNL translated_chunks),
        progress := addPath path st.progress }

/-- The per-file loop of `main` (lines 123-131) over an already-enumerated
list of file paths: skip paths in the progress set, otherwise run
`process_file`.  Besides the final state it returns the list of paths for
which the translation pipeline (`process_file`) was invoked. -/
def walk (call : List Char → Except Unit (List Char))
    (glossary : List (List Char × List Char)) :
    List (List Char) → FState → FState × List (List Char)
  | [], st => (st, [])
  | p :: rest, st =>
    if p ∈ st.progress then walk call glossary rest st
    else
      ((walk call glossary rest (process_file call glossary p st)).1,
        p :: (walk call glossary rest (process_file call glossary p st)).2)

/-- The suffix `".adoc"` checked by `file.endswith(".adoc")`. -/
def adocSuffix : List Char := ['.', 'a', 'd', 'o', 'c']

/-- `main`'s directory walk (lines 123-131) abstracting `os.walk` as a
flat enumeration `files` of the paths under the source root: only paths
ending in ".adoc" are considered. -/
def runWalk (call : List Char → Except Unit (List Char))
    (glossary : List (List Char × List Char))
    (files : List (List Char)) (st : FState) : FState × List (List Char) :=
  walk call glossary (files.filter (fun f => adocSuffix.isSuffixOf f)) st

/-- `load_glossary` (lines 26-32) with the filesystem abstracted as
`fsFile : path ↦ Option content` (`some` iff `os.path.isfile` holds) and
JSON parsing abstracted as `parseJson` (`.error` iff `json.load` raises):
a missing file yields the empty mapping after a logged warning; otherwise
the parse result — including a parse error — is returned to the caller. -/
def load_glossary (fsFile : List Char → Option (List Char))
    (parseJson : List Char → Except Unit (List (List Char × List Char)))
    (path : List Char) : Except Unit (List (List Char × List Char)) :=
  match fsFile path with
  | none => .ok []
  | some content => parseJson content

/-- The character-level substitution determined by a glossary whose
source terms are single characters: the target of the first pair whose
source is `[c]`, else `c` itself.  Used to analyse when `apply_glossary`
is independent of the glossary's insertion order. -/
def charSubst : List (List Char × List Char) → Char → List Char
  | [], c => [c]
  | p :: rest, c => if p.1 = [c] then p.2 else charSubst rest c

/- Sanity checks against the Python semantics of `str.replace`. -/
example : pyReplace ['a', 'a', 'b'] ['a', 'b'] ['b'] = ['a', 'b'] := by decide
example : pyReplace ['a', 'a', 'a'] ['a', 'a'] ['b'] = ['b', 'a'] := by decide
example : pyReplace ['a', 'b'] [] ['-'] = ['-', 'a', '-', 'b', '-'] := by decide
example : pyReplace [] [] ['-'] = ['-'] := by decide
example : hasOccur ['a', 'b'] ['x', 'a', 'b'] = true := by decide
example : hasOccur ['a', 'b'] ['x', 'a'] = false := by decide

/- Sanity checks for the chunker, from hand-evaluation of the Python. -/
example : chunk_text ['a', 'a', 'a', 'a'] 2 = [['a', 'a'], ['a', 'a']] := by decide
example : chunk_text ['a', '\n', '\n', 'b'] 2 = [['a', '\n'], ['\n', 'b']] := by decide
example : chunk_text ['a', 'b', '\n', '\n', 'c', 'd'] 5 =
    [['a', 'b', '\n'], ['\n', 'c', 'd']] := by decide
example : chunk_text [] 3 = [] := by decide
example : joinNL [['a', 'a'], ['a', 'a']] = ['a', 'a', '\n', 'a', 'a'] := by decide

/-! ### Lemmas about `pyReplace` -/

theorem replaceAux_self (o : Char) (os : List Char) :
    ∀ fuel s, s.length ≤ fuel → replaceAux o os (o :: os) fuel s = s := by
  intro fuel
  induction fuel with
  | zero =>
    intro s _
    rfl
  | succ n ih =>
    intro s hs
    match s with
    | [] => rfl
    | c :: rest =>
      rw [replaceAux]
      by_cases h : c = o ∧ rest.take os.length = os
      · rw [if_pos h]
        have hdrop : (rest.drop os.length).length ≤ n := by
          have := List.length_drop os.length rest
          simp only [List.length_cons] at hs
          omega
        rw [ih _ hdrop, h.1, List.cons_append]
        conv_rhs => rw [← List.take_append_drop os.length rest]
        rw [h.2]
      · rw [if_neg h]
        have : rest.length ≤ n := by
          simp only [List.length_cons] at hs
          omega
        rw [ih _ this]

/-- Python `s.replace(x, x)` is the identity, for every `x`. -/
theorem pyReplace_self (s x : List Char) : pyReplace s x x = s := by
  match x with
  | [] =>
    show ([] : List Char) ++ s.flatMap (fun c => c :: []) = s
    simp
  | o :: os =>
    exact replaceAux_self o os s.length s le_rfl

theorem translate_post_eq_apply_glossary_gen
    (glossary : List (List Char × List Char)) :
    ∀ t : List Char, translate_post t glossary = apply_glossary t glossary := by
  induction glossary with
  | nil => intro t; rfl
  | cons p rest ih =>
    intro t
    show translate_post (pyReplace (pyReplace t p.1 p.2) p.2 p.2) rest
        = apply_glossary (pyReplace t p.1 p.2) rest
    rw [pyReplace_self, ih]

/-! ### Occurrence-freedom lemmas -/

theorem replaceAux_of_not_occur (o : Char) (os new : List Char) :
    ∀ fuel s, hasOccur (o :: os) s = false → replaceAux o os new fuel s = s := by
  intro fuel
  induction fuel with
  | zero => intro s _; rfl
  | succ n ih =>
    intro s hs
    match s with
    | [] => rfl
    | c :: rest =>
      rw [hasOccur, Bool.or_eq_false_iff] at hs
      rw [replaceAux]
      have hcond : ¬(c = o ∧ rest.take os.length = os) := by
        intro ⟨h1, h2⟩
        have : (c :: rest).take (o :: os).length == o :: os := by
          simp only [List.length_cons, List.take_succ_cons, h1, h2, beq_self_eq_true]
        rw [hs.1] at this
        exact Bool.false_ne_true this
      rw [if_neg hcond, ih rest hs.2]

/-- If the pattern `old` does not occur in `s`, `s.replace(old, new) = s`. -/
theorem pyReplace_of_not_occur (s old new : List Char)
    (h : hasOccur old s = false) : pyReplace s old new = s := by
  match old with
  | [] =>
    exfalso
    match s with
    | [] => exact Bool.false_ne_true h.symm
    | c :: rest =>
      rw [hasOccur] at h
      simp at h
  | o :: os => exact replaceAux_of_not_occur o os new s.length s h

/-- If no glossary source term occurs in `s`, `apply_glossary` fixes `s`. -/
theorem apply_glossary_of_not_occur (glossary : List (List Char × List Char)) :
    ∀ s : List Char, (∀ p ∈ glossary, hasOccur p.1 s = false) →
      apply_glossary s glossary = s := by
  induction glossary with
  | nil => intro s _; rfl
  | cons p rest ih =>
    intro s hp
    show apply_glossary (pyReplace s p.1 p.2) rest = s
    rw [pyReplace_of_not_occur s p.1 p.2 (hp p (List.mem_cons_self p rest))]
    exact ih s fun q hq => hp q (List.mem_cons_of_mem p hq)

/-! ### Lemmas about the chunker -/

theorem rfindAux_some (t : List Char) (start : Nat) :
    ∀ n p, rfindAux t start n = some p → start ≤ p ∧ p < n ∧ nnAt t p := by
  intro n
  induction n with
  | zero => intro p h; exact absurd h (by simp [rfindAux])
  | succ m ih =>
    intro p h
    rw [rfindAux] at h
    by_cases hc : start ≤ m ∧ nnAt t m
    · rw [if_pos hc] at h
      cases h
      exact ⟨hc.1, Nat.lt_succ_self m, hc.2⟩
    · rw [if_neg hc] at h
      obtain ⟨h1, h2, h3⟩ := ih p h
      exact ⟨h1, Nat.lt_succ_of_lt h2, h3⟩

theorem rfindAux_max (t : List Char) (start : Nat) :
    ∀ n p, rfindAux t start n = some p →
      ∀ q, start ≤ q → q < n → nnAt t q → q ≤ p := by
  intro n
  induction n with
  | zero => intro p h; exact absurd h (by simp [rfindAux])
  | succ m ih =>
    intro p h q hq1 hq2 hq3
    rw [rfindAux] at h
    by_cases hc : start ≤ m ∧ nnAt t m
    · rw [if_pos hc] at h
      cases h
      omega
    · rw [if_neg hc] at h
      rcases Nat.lt_succ_iff_lt_or_eq.mp hq2 with hlt | heq
      · exact ih p h q hq1 hlt hq3
      · exact absurd ⟨heq ▸ hq1, heq ▸ hq3⟩ hc

theorem rfindAux_none (t : List Char) (start : Nat) :
    ∀ n, rfindAux t start n = none →
      ∀ q, start ≤ q → q < n → ¬ nnAt t q := by
  intro n
  induction n with
  | zero => intro _ q _ h; omega
  | succ m ih =>
    intro h q hq1 hq2 hq3
    rw [rfindAux] at h
    by_cases hc : start ≤ m ∧ nnAt t m
    · rw [if_pos hc] at h; cases h
    · rw [if_neg hc] at h
      rcases Nat.lt_succ_iff_lt_or_eq.mp hq2 with hlt | heq
      · exact ih h q hq1 hlt hq3
      · exact hc ⟨heq ▸ hq1, heq ▸ hq3⟩

theorem cutPos_eq_of_some_pos (t : List Char) (size start p : Nat)
    (he : min (start + size) t.length < t.length)
    (hr : rfind2NL t start (min (start + size) t.length) = some p)
    (hsp : start < p) : cutPos t size start = p + 1 := by
  rw [cutPos, if_pos he, hr]
  exact if_pos hsp

theorem cutPos_eq_of_some_ge (t : List Char) (size start p : Nat)
    (he : min (start + size) t.length < t.length)
    (hr : rfind2NL t start (min (start + size) t.length) = some p)
    (hsp : ¬ start < p) : cutPos t size start = min (start + size) t.length := by
  rw [cutPos, if_pos he, hr]
  exact if_neg hsp

theorem cutPos_eq_of_none (t : List Char) (size start : Nat)
    (he : min (start + size) t.length < t.length)
    (hr : rfind2NL t start (min (start + size) t.length) = none) :
    cutPos t size start = min (start + size) t.length := by
  rw [cutPos, if_pos he, hr]

theorem cutPos_eq_of_last (t : List Char) (size start : Nat)
    (he : ¬ min (start + size) t.length < t.length) :
    cutPos t size start = min (start + size) t.length := by
  rw [cutPos, if_neg he]

theorem cutPos_le (t : List Char) (size start : Nat) :
    cutPos t size start ≤ min (start + size) t.length := by
  by_cases he : min (start + size) t.length < t.length
  · cases hr : rfind2NL t start (min (start + size) t.length) with
    | none => rw [cutPos_eq_of_none t size start he hr]
    | some p =>
      by_cases hsp : start < p
      · rw [cutPos_eq_of_some_pos t size start p he hr hsp]
        rw [rfind2NL] at hr
        obtain ⟨_, hp2, _⟩ := rfindAux_some t start _ p hr
        omega
      · rw [cutPos_eq_of_some_ge t size start p he hr hsp]
  · rw [cutPos_eq_of_last t size start he]

theorem cutPos_lt (t : List Char) (size start : Nat)
    (hsize : 0 < size) (hstart : start < t.length) :
    start < cutPos t size start := by
  have hmin : start < min (start + size) t.length := by omega
  by_cases he : min (start + size) t.length < t.length
  · cases hr : rfind2NL t start (min (start + size) t.length) with
    | none => rw [cutPos_eq_of_none t size start he hr]; exact hmin
    | some p =>
      by_cases hsp : start < p
      · rw [cutPos_eq_of_some_pos t size start p he hr hsp]; omega
      · rw [cutPos_eq_of_some_ge t size start p he hr hsp]; exact hmin
  · rw [cutPos_eq_of_last t size start he]; exact hmin

theorem chunkAux_flatten (t : List Char) (size : Nat) (hsize : 0 < size) :
    ∀ fuel start, t.length ≤ start + fuel →
      (chunkAux t size start fuel).flatten = t.drop start := by
  intro fuel
  induction fuel with
  | zero =>
    intro start h
    rw [chunkAux, List.flatten_nil, eq_comm, List.drop_eq_nil_iff]
    omega
  | succ m ih =>
    intro start h
    rw [chunkAux]
    by_cases hs : start < t.length
    · rw [if_pos hs, List.flatten_cons]
      have h1 : start < cutPos t size start := cutPos_lt t size start hsize hs
      have h2 : cutPos t size start ≤ t.length := by
        have := cutPos_le t size start
        omega
      rw [ih (cutPos t size start) (by omega)]
      have hdd : t.drop (cutPos t size start)
          = (t.drop start).drop (cutPos t size start - start) := by
        rw [List.drop_drop]
        congr 1
        omega
      rw [hdd, List.take_append_drop]
    · rw [if_neg hs, List.flatten_nil, eq_comm, List.drop_eq_nil_iff]
      omega

/-- Plain concatenation of the chunks reproduces the input text. -/
theorem chunk_text_flatten (t : List Char) (size : Nat) (hsize : 0 < size) :
    (chunk_text t size).flatten = t := by
  rw [chunk_text, chunkAux_flatten t size hsize t.length 0 (by omega), List.drop_zero]

theorem chunkAux_length_le (t : List Char) (size : Nat) :
    ∀ fuel start c, c ∈ chunkAux t size start fuel → c.length ≤ size := by
  intro fuel
  induction fuel with
  | zero => intro start c hc; rw [chunkAux] at hc; cases hc
  | succ m ih =>
    intro start c hc
    rw [chunkAux] at hc
    by_cases hs : start < t.length
    · rw [if_pos hs] at hc
      rcases List.mem_cons.mp hc with heq | hmem
      · subst heq
        have h1 := List.length_take_le (cutPos t size start - start) (t.drop start)
        have h2 := cutPos_le t size start
        omega
      · exact ih (cutPos t size start) c hmem
    · rw [if_neg hs] at hc; cases hc

theorem joinNL_length (L : List (List Char)) (hne : L ≠ []) :
    (joinNL L).length + 1 = L.flatten.length + L.length := by
  induction L with
  | nil => exact absurd rfl hne
  | cons c rest ih =>
    match rest with
    | [] => simp [joinNL]
    | d :: rest' =>
      have hj : joinNL (c :: d :: rest') = c ++ '\n' :: joinNL (d :: rest') := rfl
      rw [hj, List.flatten_cons]
      have hi := ih (by simp)
      simp only [List.length_append, List.length_cons] at hi ⊢
      omega

/-! ### Lemmas about the per-file pipeline and the walker -/

theorem process_file_progress_mono (call : List Char → Except Unit (List Char))
    (glossary : List (List Char × List Char)) (p : List Char) (st : FState)
    (q : List Char) (hq : q ∈ st.progress) :
    q ∈ (process_file call glossary p st).progress := by
  cases hl : st.files.lookup p with
  | none => simp only [process_file, hl]; exact hq
  | some content =>
    cases ht : translateChunks call glossary (chunk_text content CHUNK_SIZE) with
    | error e => simp only [process_file, hl, ht]; exact hq
    | ok ts =>
      simp only [process_file, hl, ht]
      show q ∈ addPath p st.progress
      rw [addPath]
      by_cases hp : p ∈ st.progress
      · rw [if_pos hp]; exact hq
      · rw [if_neg hp]; exact List.mem_cons_of_mem p hq

theorem process_file_progress_cases (call : List Char → Except Unit (List Char))
    (glossary : List (List Char × List Char)) (p : List Char) (st : FState)
    (q : List Char) (hq : q ∈ (process_file call glossary p st).progress) :
    q = p ∨ q ∈ st.progress := by
  cases hl : st.files.lookup p with
  | none => simp only [process_file, hl] at hq; exact Or.inr hq
  | some content =>
    cases ht : translateChunks call glossary (chunk_text content CHUNK_SIZE) with
    | error e => simp only [process_file, hl, ht] at hq; exact Or.inr hq
    | ok ts =>
      simp only [process_file, hl, ht] at hq
      have : q ∈ addPath p st.progress := hq
      rw [addPath] at this
      by_cases hp : p ∈ st.progress
      · rw [if_pos hp] at this; exact Or.inr this
      · rw [if_neg hp] at this
        exact List.mem_cons.mp this

theorem walk_skips (call : List Char → Except Unit (List Char))
    (glossary : List (List Char × List Char)) :
    ∀ (l : List (List Char)) (st : FState) (P : List Char),
      P ∈ st.progress → P ∉ (walk call glossary l st).2 := by
  intro l
  induction l with
  | nil => intro st P _ h; cases h
  | cons p rest ih =>
    intro st P hP
    rw [walk]
    by_cases hp : p ∈ st.progress
    · rw [if_pos hp]; exact ih st P hP
    · rw [if_neg hp]
      intro hmem
      rcases List.mem_cons.mp hmem with heq | hmem2
      · exact hp (heq ▸ hP)
      · exact ih (process_file call glossary p st) P
          (process_file_progress_mono call glossary p st P hP) hmem2

theorem walk_invokes (call : List Char → Except Unit (List Char))
    (glossary : List (List Char × List Char)) :
    ∀ (l : List (List Char)) (st : FState) (P : List Char),
      P ∈ l → P ∉ st.progress → P ∈ (walk call glossary l st).2 := by
  intro l
  induction l with
  | nil => intro st P h _; cases h
  | cons p rest ih =>
    intro st P hPl hP
    rw [walk]
    by_cases hp : p ∈ st.progress
    · rw [if_pos hp]
      rcases List.mem_cons.mp hPl with heq | hmem
      · exact absurd (heq ▸ hp) hP
      · exact ih st P hmem hP
    · rw [if_neg hp]
      by_cases hPp : P = p
      · exact hPp ▸ List.mem_cons_self _ _
      · have hmem : P ∈ rest := by
          rcases List.mem_cons.mp hPl with heq | hmem
          · exact absurd heq hPp
          · exact hmem
        refine List.mem_cons_of_mem p (ih (process_file call glossary p st) P hmem ?_)
        intro hc
        rcases process_file_progress_cases call glossary p st P hc with heq2 | hmem2
        · exact hPp heq2
        · exact hP hmem2

/-! ### Single-character glossaries: order independence -/

theorem replaceAux_single (c0 : Char) (tgt : List Char) :
    ∀ fuel s, s.length ≤ fuel →
      replaceAux c0 [] tgt fuel s
        = s.flatMap (fun c => if c = c0 then tgt else [c]) := by
  intro fuel
  induction fuel with
  | zero =>
    intro s hs
    match s with
    | [] => rfl
    | c :: rest => simp at hs
  | succ n ih =>
    intro s hs
    match s with
    | [] => rfl
    | c :: rest =>
      rw [replaceAux, List.flatMap_cons]
      by_cases h : c = c0
      · rw [if_pos ⟨h, by simp⟩, if_pos h]
        rw [show List.drop (List.length ([] : List Char)) rest = rest from by simp]
        rw [ih rest (by simp only [List.length_cons] at hs; omega)]
      · rw [if_neg (fun hc => h hc.1), if_neg h]
        rw [ih rest (by simp only [List.length_cons] at hs; omega)]
        rfl

theorem pyReplace_single (c0 : Char) (tgt s : List Char) :
    pyReplace s [c0] tgt = s.flatMap (fun c => if c = c0 then tgt else [c]) :=
  replaceAux_single c0 tgt s.length s le_rfl

theorem flatMap_id_of (t : List Char) (F : Char → List Char)
    (h : ∀ c ∈ t, F c = [c]) : t.flatMap F = t := by
  induction t with
  | nil => rfl
  | cons c rest ih =>
    rw [List.flatMap_cons, h c (List.mem_cons_self c rest),
      ih fun d hd => h d (List.mem_cons_of_mem c hd)]
    rfl

theorem charSubst_of_no_key (d : Char) :
    ∀ g : List (List Char × List Char), (∀ q ∈ g, q.1 ≠ [d]) → charSubst g d = [d] := by
  intro g
  induction g with
  | nil => intro _; rfl
  | cons p rest ih =>
    intro h
    rw [charSubst, if_neg (h p (List.mem_cons_self p rest))]
    exact ih fun q hq => h q (List.mem_cons_of_mem p hq)

theorem apply_glossary_eq_flatMap :
    ∀ g : List (List Char × List Char),
      (∀ p ∈ g, p.1.length = 1) →
      (∀ p ∈ g, ∀ q ∈ g, ∀ c ∈ p.2, q.1 ≠ [c]) →
      ∀ t : List Char, apply_glossary t g = t.flatMap (charSubst g) := by
  intro g
  induction g with
  | nil =>
    intro _ _ t
    exact (flatMap_id_of t _ fun c _ => rfl).symm
  | cons p rest ih =>
    intro h1 h3 t
    obtain ⟨c0, hc0⟩ := List.length_eq_one.mp (h1 p (List.mem_cons_self p rest))
    have h1' : ∀ q ∈ rest, q.1.length = 1 :=
      fun q hq => h1 q (List.mem_cons_of_mem p hq)
    have h3' : ∀ a ∈ rest, ∀ q ∈ rest, ∀ c ∈ a.2, q.1 ≠ [c] :=
      fun a ha q hq c hc =>
        h3 a (List.mem_cons_of_mem p ha) q (List.mem_cons_of_mem p hq) c hc
    show apply_glossary (pyReplace t p.1 p.2) rest = t.flatMap (charSubst (p :: rest))
    rw [ih h1' h3' (pyReplace t p.1 p.2), hc0, pyReplace_single, List.flatMap_assoc]
    refine congrArg t.flatMap (funext fun c => ?_)
    simp only [charSubst]
    by_cases hc : c = c0
    · rw [if_pos hc, if_pos (show p.1 = [c] from by rw [hc0, hc])]
      refine flatMap_id_of p.2 _ fun d hd => ?_
      exact charSubst_of_no_key d rest fun q hq =>
        h3 p (List.mem_cons_self p rest) q (List.mem_cons_of_mem p hq) d hd
    · have hne : p.1 ≠ [c] := by
        rw [hc0]
        intro h
        exact hc (List.cons_eq_cons.mp h).1.symm
      rw [if_neg hc, if_neg hne, List.flatMap_singleton]

theorem charSubst_perm {g g' : List (List Char × List Char)} (hperm : g.Perm g') :
    (g.map Prod.fst).Nodup → ∀ c, charSubst g c = charSubst g' c := by
  induction hperm with
  | nil => intro _ _; rfl
  | cons x h ih =>
    intro hnd c
    simp only [charSubst]
    by_cases hx : x.1 = [c]
    · rw [if_pos hx, if_pos hx]
    · rw [if_neg hx, if_neg hx]
      exact ih (by simpa using hnd.of_cons) c
  | swap x y l =>
    intro hnd c
    have hxy : y.1 ≠ x.1 := by
      simp only [List.map_cons, List.nodup_cons, List.mem_cons] at hnd
      exact fun h => hnd.1 (Or.inl h)
    simp only [charSubst]
    by_cases hy : y.1 = [c]
    · rw [if_pos hy, if_neg (fun hx => hxy (hy.trans hx.symm)), if_pos hy]
    · rw [if_neg hy]
      by_cases hx : x.1 = [c]
      · rw [if_pos hx, if_pos hx]
      · rw [if_neg hx, if_neg hx, if_neg hy]
  | trans h1 h2 ih1 ih2 =>
    intro hnd c
    rw [ih1 hnd c, ih2 ((h1.map Prod.fst).nodup_iff.mp hnd) c]

/-! ### Claim C1 -/

/-- C1 fails as stated: with the positive chunk size 2 and input "aaaa",
joining the chunks of `chunk_text` with the "\n" separator that
`process_file` uses does not reproduce the original text (an extra
newline appears at every chunk boundary). -/
theorem c1_counterexample :
    0 < 2 ∧ joinNL (chunk_text ['a', 'a', 'a', 'a'] 2) ≠ ['a', 'a', 'a', 'a'] := by
  decide

/-- C1 (amended): for every text and positive chunk size, joining the
chunks of `chunk_text` with the single "\n" separator used by
`process_file` yields the original text exactly if and only if at most
one chunk is produced; (plain concatenation, by contrast, always
reproduces the text — claim C2). -/
theorem c1_join_roundtrip (t : List Char) (size : Nat) (hsize : 0 < size) :
    joinNL (chunk_text t size) = t ↔ (chunk_text t size).length ≤ 1 := by
  have hflat := chunk_text_flatten t size hsize
  constructor
  · intro hj
    by_contra hlen
    have hne : chunk_text t size ≠ [] := by
      intro h
      rw [h] at hlen
      simp at hlen
    have hjl := joinNL_length (chunk_text t size) hne
    rw [hj, hflat] at hjl
    omega
  · intro hlen
    rcases hL : chunk_text t size with _ | ⟨c, _ | ⟨d, rest⟩⟩
    · rw [hL] at hflat
      simp only [List.flatten_nil] at hflat
      rw [← hflat]
      rfl
    · rw [hL] at hflat
      simp only [List.flatten_cons, List.flatten_nil, List.append_nil] at hflat
      rw [← hflat]
      rfl
    · rw [hL] at hlen
      simp at hlen

/-- Witness for C1 (amended) at text "ab" and size 5. -/
theorem c1_witness :
    0 < 5 ∧ (joinNL (chunk_text ['a', 'b'] 5) = ['a', 'b']
      ↔ (chunk_text ['a', 'b'] 5).length ≤ 1) :=
  ⟨by decide, c1_join_roundtrip ['a', 'b'] 5 (by decide)⟩

/-! ### Claim C2 -/

/-- C2: for every input text and positive chunk size, the plain
concatenation (no separator) of the chunks produced by `chunk_text` is
exactly the original text. -/
theorem c2_concat_roundtrip (t : List Char) (size : Nat) (hsize : 0 < size) :
    (chunk_text t size).flatten = t :=
  chunk_text_flatten t size hsize

/-- Witness for C2 at text "a\n\nb" and size 2 (two chunks). -/
theorem c2_witness :
    0 < 2 ∧ (chunk_text ['a', '\n', '\n', 'b'] 2).flatten = ['a', '\n', '\n', 'b'] :=
  ⟨by decide, c2_concat_roundtrip ['a', '\n', '\n', 'b'] 2 (by decide)⟩

/-! ### Claim C3 -/

/-- C3: if the translator raises on some chunk of the file at `path`
(i.e. the buffered chunk-translation loop returns an error), then
`process_file` leaves the whole state — in particular that file's on-disk
content and the progress set — unchanged, and the walk over the remaining
files proceeds exactly as if the failed file had been passed over. -/
theorem c3_failure_isolation (call : List Char → Except Unit (List Char))
    (glossary : List (List Char × List Char)) (path content : List Char)
    (st : FState) (rest : List (List Char))
    (hread : st.files.lookup path = some content)
    (hfail : translateChunks call glossary (chunk_text content CHUNK_SIZE) = .error ()) :
    process_file call glossary path st = st ∧
      (walk call glossary (path :: rest) st).1 = (walk call glossary rest st).1 := by
  have h1 : process_file call glossary path st = st := by
    simp only [process_file, hread, hfail]
  refine ⟨h1, ?_⟩
  rw [walk]
  by_cases hp : path ∈ st.progress
  · rw [if_pos hp]
  · rw [if_neg hp, h1]

/-- Witness for C3: one file "f" whose (sole) chunk always fails. -/
theorem c3_witness :
    process_file (fun _ => .error ()) [] ['f'] (FState.mk [(['f'], ['x'])] [])
        = FState.mk [(['f'], ['x'])] [] ∧
      (walk (fun _ => .error ()) [] [['f']] (FState.mk [(['f'], ['x'])] [])).1
        = (walk (fun _ => .error ()) [] [] (FState.mk [(['f'], ['x'])] [])).1 :=
  c3_failure_isolation (fun _ => .error ()) [] ['f'] ['x']
    (FState.mk [(['f'], ['x'])] []) [] (by decide) rfl

/-! ### Claim C4 -/

/-- C4 fails as stated: with glossary {"a": "ab"} and text "a", one
application of `apply_glossary` gives "ab" but a second application
gives "abb". -/
theorem c4_counterexample :
    apply_glossary (apply_glossary ['a'] [(['a'], ['a', 'b'])]) [(['a'], ['a', 'b'])]
      ≠ apply_glossary ['a'] [(['a'], ['a', 'b'])] := by
  decide

/-- C4 (amended): applying the glossary substitution twice yields the
same result as applying it once, provided no source term of the glossary
still occurs (as a contiguous substring) in the once-substituted text —
in particular this holds whenever no target term reintroduces a source
term.  In general a second application can change the text again, as the
counterexample shows. -/
theorem c4_idempotent_amended (text : List Char)
    (glossary : List (List Char × List Char))
    (h : ∀ p ∈ glossary, hasOccur p.1 (apply_glossary text glossary) = false) :
    apply_glossary (apply_glossary text glossary) glossary
      = apply_glossary text glossary :=
  apply_glossary_of_not_occur glossary (apply_glossary text glossary) h

/-- Witness for C4 (amended) at text "a" and glossary {"a": "b"}. -/
theorem c4_witness :
    (∀ p ∈ [(['a'], ['b'])], hasOccur p.1 (apply_glossary ['a'] [(['a'], ['b'])]) = false) ∧
      apply_glossary (apply_glossary ['a'] [(['a'], ['b'])]) [(['a'], ['b'])]
        = apply_glossary ['a'] [(['a'], ['b'])] :=
  ⟨by decide, c4_idempotent_amended ['a'] [(['a'], ['b'])] (by decide)⟩

/-! ### Claim C5 -/

/-- C5 fails as stated: the glossaries [("a","b"), ("b","c")] and
[("b","c"), ("a","b")] contain the same pairs in different orders, yet on
the text "a" `apply_glossary` returns "c" for the first and "b" for the
second. -/
theorem c5_counterexample :
    ([(['a'], ['b']), (['b'], ['c'])] : List (List Char × List Char)).Perm
        [(['b'], ['c']), (['a'], ['b'])] ∧
      apply_glossary ['a'] [(['a'], ['b']), (['b'], ['c'])]
        ≠ apply_glossary ['a'] [(['b'], ['c']), (['a'], ['b'])] := by
  constructor
  · decide
  · decide

/-- C5 (amended): the result of `apply_glossary` is independent of the
glossary's insertion order for non-interfering glossaries: when every
source term is a single character, the source terms are pairwise
distinct, and no source term occurs in any target term.  In general
(interacting pairs) the insertion order matters, as the counterexample
shows. -/
theorem c5_order_independent_amended (t : List Char)
    (g g' : List (List Char × List Char)) (hperm : g.Perm g')
    (h1 : ∀ p ∈ g, p.1.length = 1)
    (h2 : (g.map Prod.fst).Nodup)
    (h3 : ∀ p ∈ g, ∀ q ∈ g, ∀ c ∈ p.2, q.1 ≠ [c]) :
    apply_glossary t g = apply_glossary t g' := by
  have h1' : ∀ p ∈ g', p.1.length = 1 := fun p hp => h1 p (hperm.mem_iff.mpr hp)
  have h3' : ∀ p ∈ g', ∀ q ∈ g', ∀ c ∈ p.2, q.1 ≠ [c] := fun p hp q hq c hc =>
    h3 p (hperm.mem_iff.mpr hp) q (hperm.mem_iff.mpr hq) c hc
  rw [apply_glossary_eq_flatMap g h1 h3 t, apply_glossary_eq_flatMap g' h1' h3' t]
  exact congrArg t.flatMap (funext (charSubst_perm hperm h2))

/-- Witness for C5 (amended): {"a": "x", "b": "y"} in its two orders on
the text "ab". -/
theorem c5_witness :
    (([(['a'], ['x']), (['b'], ['y'])] : List (List Char × List Char)).Perm
        [(['b'], ['y']), (['a'], ['x'])]) ∧
      apply_glossary ['a', 'b'] [(['a'], ['x']), (['b'], ['y'])]
        = apply_glossary ['a', 'b'] [(['b'], ['y']), (['a'], ['x'])] :=
  ⟨by decide,
    c5_order_independent_amended ['a', 'b'] [(['a'], ['x']), (['b'], ['y'])]
      [(['b'], ['y']), (['a'], ['x'])] (by decide) (by decide) (by decide) (by decide)⟩

/-! ### Claim C6 -/

/-- C6: for every input text and positive chunk size, every chunk
produced by `chunk_text` except possibly the last has length at most
`size` (in fact every chunk, the last included, is bounded by `size`;
the stated form quantifies over all but the last chunk). -/
theorem c6_chunk_bound (t : List Char) (size : Nat) (_hsize : 0 < size) :
    ∀ c ∈ (chunk_text t size).dropLast, c.length ≤ size := by
  intro c hc
  exact chunkAux_length_le t size t.length 0 c ((List.dropLast_sublist _).subset hc)

/-- Witness for C6 at text "aaaaa" and size 2 (three chunks). -/
theorem c6_witness :
    0 < 2 ∧ ∀ c ∈ (chunk_text ['a', 'a', 'a', 'a', 'a'] 2).dropLast, c.length ≤ 2 :=
  ⟨by decide, c6_chunk_bound ['a', 'a', 'a', 'a', 'a'] 2 (by decide)⟩

/-! ### Claim C7 -/

/-- C7: whenever `chunk_text` selects a cut point (the size limit falls
short of the end of the text), then: if a double newline lies wholly
within the window — at a position strictly after the chunk's start with
both characters at or before the size limit — the cut is made at the
last such paragraph break (just after its first newline) rather than at
the size limit; and if no paragraph break exists in that range, the cut
is made exactly at the size limit. -/
theorem c7_cut_preference (t : List Char) (size start : Nat)
    (hsel : start + size < t.length) :
    ((∃ p, start < p ∧ p + 2 ≤ start + size ∧ nnAt t p) →
      ∃ p, start < p ∧ p + 2 ≤ start + size ∧ nnAt t p ∧
        cutPos t size start = p + 1 ∧
        ∀ q, start < q → q + 2 ≤ start + size → nnAt t q → q ≤ p) ∧
    ((∀ p, start < p → p + 2 ≤ start + size → ¬ nnAt t p) →
      cutPos t size start = start + size) := by
  have he : min (start + size) t.length < t.length := by omega
  constructor
  · rintro ⟨q, hq1, hq2, hq3⟩
    cases hr : rfind2NL t start (min (start + size) t.length) with
    | none =>
      exfalso
      have hrA : rfindAux t start (min (min (start + size) t.length) t.length - 1)
          = none := hr
      exact rfindAux_none t start _ hrA q (le_of_lt hq1) (by omega) hq3
    | some p =>
      have hrA : rfindAux t start (min (min (start + size) t.length) t.length - 1)
          = some p := hr
      obtain ⟨hp1, hp2, hp3⟩ := rfindAux_some t start _ p hrA
      have hmax := rfindAux_max t start _ p hrA
      have hsp : start < p := lt_of_lt_of_le hq1 (hmax q (le_of_lt hq1) (by omega) hq3)
      refine ⟨p, hsp, by omega, hp3,
        cutPos_eq_of_some_pos t size start p he hr hsp, ?_⟩
      intro q' h1 h2 h3
      exact hmax q' (le_of_lt h1) (by omega) h3
  · intro hno
    cases hr : rfind2NL t start (min (start + size) t.length) with
    | none =>
      rw [cutPos_eq_of_none t size start he hr]
      omega
    | some p =>
      have hrA : rfindAux t start (min (min (start + size) t.length) t.length - 1)
          = some p := hr
      obtain ⟨hp1, hp2, hp3⟩ := rfindAux_some t start _ p hrA
      by_cases hsp : start < p
      · exact absurd hp3 (hno p hsp (by omega))
      · rw [cutPos_eq_of_some_ge t size start p he hr hsp]
        omega

/-- Witness for C7 at text "a\n\nbcde", size 4, start 0: the paragraph
break at position 1 is preferred, so the cut lands at position 2. -/
theorem c7_witness :
    0 + 4 < (['a', '\n', '\n', 'b', 'c', 'd', 'e'] : List Char).length ∧
    (((∃ p, 0 < p ∧ p + 2 ≤ 0 + 4 ∧ nnAt ['a', '\n', '\n', 'b', 'c', 'd', 'e'] p) →
      ∃ p, 0 < p ∧ p + 2 ≤ 0 + 4 ∧ nnAt ['a', '\n', '\n', 'b', 'c', 'd', 'e'] p ∧
        cutPos ['a', '\n', '\n', 'b', 'c', 'd', 'e'] 4 0 = p + 1 ∧
        ∀ q, 0 < q → q + 2 ≤ 0 + 4 → nnAt ['a', '\n', '\n', 'b', 'c', 'd', 'e'] q → q ≤ p) ∧
    ((∀ p, 0 < p → p + 2 ≤ 0 + 4 → ¬ nnAt ['a', '\n', '\n', 'b', 'c', 'd', 'e'] p) →
      cutPos ['a', '\n', '\n', 'b', 'c', 'd', 'e'] 4 0 = 0 + 4)) :=
  ⟨by decide, c7_cut_preference ['a', '\n', '\n', 'b', 'c', 'd', 'e'] 4 0 (by decide)⟩

/-! ### Claim C8 -/

/-- C8: a path in the loaded progress set is never handed to the
translation pipeline during the walk (it is skipped), while every
".adoc"-suffixed path in the enumeration that is not in the progress set
is handed to the pipeline.  The second component of `runWalk` is the
list of paths for which `process_file` was invoked. -/
theorem c8_progress_resume (call : List Char → Except Unit (List Char))
    (glossary : List (List Char × List Char)) (files : List (List Char))
    (st : FState) (P : List Char) :
    (P ∈ st.progress → P ∉ (runWalk call glossary files st).2) ∧
    (P ∈ files → adocSuffix.isSuffixOf P = true → P ∉ st.progress →
      P ∈ (runWalk call glossary files st).2) := by
  constructor
  · intro hP
    exact walk_skips call glossary _ st P hP
  · intro hf hsuf hP
    exact walk_invokes call glossary _ st P (List.mem_filter.mpr ⟨hf, hsuf⟩) hP

/-- Witness for C8: two ".adoc" files of which the first is already in
the progress set — the first is skipped, the second is processed. -/
theorem c8_witness :
    (['a', '.', 'a', 'd', 'o', 'c'] : List Char)
        ∉ (runWalk (fun s => .ok s) []
            [['a', '.', 'a', 'd', 'o', 'c'], ['b', '.', 'a', 'd', 'o', 'c']]
            (FState.mk [] [['a', '.', 'a', 'd', 'o', 'c']])).2 ∧
      (['b', '.', 'a', 'd', 'o', 'c'] : List Char)
        ∈ (runWalk (fun s => .ok s) []
            [['a', '.', 'a', 'd', 'o', 'c'], ['b', '.', 'a', 'd', 'o', 'c']]
            (FState.mk [] [['a', '.', 'a', 'd', 'o', 'c']])).2 :=
  ⟨(c8_progress_resume (fun s => .ok s) []
      [['a', '.', 'a', 'd', 'o', 'c'], ['b', '.', 'a', 'd', 'o', 'c']]
      (FState.mk [] [['a', '.', 'a', 'd', 'o', 'c']])
      ['a', '.', 'a', 'd', 'o', 'c']).1 (by decide),
    (c8_progress_resume (fun s => .ok s) []
      [['a', '.', 'a', 'd', 'o', 'c'], ['b', '.', 'a', 'd', 'o', 'c']]
      (FState.mk [] [['a', '.', 'a', 'd', 'o', 'c']])
      ['b', '.', 'a', 'd', 'o', 'c']).2 (by decide) (by decide) (by decide)⟩

/-! ### Claim C9 -/

/-- C9: pointing `load_glossary` at a path that does not name an existing
file yields the empty mapping (after a logged warning) and never an
error, while a path naming an existing file whose content fails to parse
as JSON propagates the parse error to the caller. -/
theorem c9_glossary_load (fsFile : List Char → Option (List Char))
    (parseJson : List Char → Except Unit (List (List Char × List Char)))
    (path : List Char) :
    (fsFile path = none → load_glossary fsFile parseJson path = .ok []) ∧
    (∀ content e, fsFile path = some content → parseJson content = .error e →
      load_glossary fsFile parseJson path = .error e) := by
  constructor
  · intro h
    simp only [load_glossary, h]
  · intro content e h1 h2
    simp only [load_glossary, h1, h2]

/-- Witness for C9: a one-file filesystem ("g" ↦ "j") whose parser
always fails: loading from the absent path "h" yields the empty mapping,
loading from "g" propagates the parse error. -/
theorem c9_witness :
    load_glossary (fun p => if p = ['g'] then some ['j'] else none)
        (fun _ => .error ()) ['h'] = .ok [] ∧
      load_glossary (fun p => if p = ['g'] then some ['j'] else none)
        (fun _ => .error ()) ['g'] = .error () :=
  ⟨(c9_glossary_load (fun p => if p = ['g'] then some ['j'] else none)
      (fun _ => .error ()) ['h']).1 (by decide),
    (c9_glossary_load (fun p => if p = ['g'] then some ['j'] else none)
      (fun _ => .error ()) ['g']).2 ['j'] () (by decide) rfl⟩

/-! ### Claim C10 -/

/-- C10: the glossary post-processing inside `translate_chunk`
(`translated.replace(zh, en).replace(en, en)` folded over the glossary)
is extensionally equal to `apply_glossary` on the model's output text,
for every output text and every glossary: the extra replacement of the
target term by itself is the identity. -/
theorem c10_post_equiv (translated : List Char)
    (glossary : List (List Char × List Char)) :
    translate_post translated glossary = apply_glossary translated glossary :=
  translate_post_eq_apply_glossary_gen glossary translated

end AdocTranslate
